import Mathlib

/-!
Verification of the orchestration layer of the APK-extractor repository
(`src/orchestrator/orchestrator.py`), as a shallow embedding in Lean.

Modelling conventions:
* Time is a `Nat` (an abstract clock tick; the source uses wall-clock
  `datetime.utcnow()` / `time.time()*1000`, with `datetime` comparisons
  translated to `Nat` comparisons).
* The Python `OrderedDict` result cache is a `List (String × CacheVal)`
  with the front of the list being the oldest (first-to-be-popped) entry;
  `move_to_end` is "erase then append", and assignment to an existing key
  replaces the value in place (keeping its position), exactly as
  `OrderedDict.__setitem__` does.
* Network effects (health probes, extraction calls) are oracles passed in
  as explicit function arguments; log emission is modelled as a returned
  Boolean flag where a claim talks about logging.
* Each top-level Python function keeps its (camelCased) source name.
-/

namespace ApkOrch

/-! ## String helpers (Python `str.strip`, `str.startswith`, regexes) -/

/-- Characters removed by Python `str.strip()` (ASCII whitespace). -/
def pySpace (c : Char) : Bool :=
  c = ' ' || c = '\t' || c = '\n' || c = '\x0d' || c = '\x0b' || c = '\x0c'

/-- Python `str.strip()` on a character list. -/
def pyStrip (l : List Char) : List Char :=
  ((l.dropWhile pySpace).reverse.dropWhile pySpace).reverse

/-- Python `str.strip()` on a `String`. -/
def pyStripS (s : String) : String := ⟨pyStrip s.data⟩

/-- Function `isPreCh p s` is Python `s.startswith(p)` on character lists. -/
def isPreCh : List Char → List Char → Bool
  | [], _ => true
  | _ :: _, [] => false
  | a :: as, b :: bs => a = b && isPreCh as bs

/-- Python `s.startswith(p)` on strings. -/
def strStarts (p s : String) : Bool := isPreCh p.data s.data

/-- Character class `[a-zA-Z0-9_.]` of the URL-extraction regex
`id=([a-zA-Z0-9_.]+)` in `validate_package_name`. -/
def idChar (c : Char) : Bool := c.isAlpha || c.isDigit || c = '_' || c = '.'

/-- Character class `[a-zA-Z0-9_]` of the package-name regex. -/
def wordChar (c : Char) : Bool := c.isAlpha || c.isDigit || c = '_'

/-- Attempt to match `id=([a-zA-Z0-9_.]+)` at the current position only. -/
def idEqHere : List Char → Option (List Char)
  | 'i' :: 'd' :: '=' :: c :: rest =>
    if idChar c then some (c :: rest.takeWhile idChar) else none
  | _ => none

/-- Python `re.search(r'id=([a-zA-Z0-9_.]+)', s)`: leftmost occurrence of the
literal `id=` followed by at least one class character; the (greedy)
capture group is the maximal run of class characters after the `=`. -/
def urlExtract : List Char → Option (List Char)
  | [] => none
  | c :: rest =>
    match idEqHere (c :: rest) with
    | some g => some g
    | none => urlExtract rest

/-- Split a character list on `'.'`, keeping empty segments
(so `"a..b"` has an empty middle segment and `"a."` a trailing one). -/
def splitDots : List Char → List (List Char)
  | [] => [[]]
  | c :: rest =>
    if c = '.' then [] :: splitDots rest
    else
      match splitDots rest with
      | s :: ss => (c :: s) :: ss
      | [] => [[c]]

/-- One segment of the package regex: `[a-zA-Z][a-zA-Z0-9_]*`. -/
def segOk : List Char → Bool
  | [] => false
  | c :: rest => c.isAlpha && rest.all wordChar

/-- Full anchored match of `^[a-zA-Z][a-zA-Z0-9_]*(\.[a-zA-Z][a-zA-Z0-9_]*)+$`:
at least two dot-separated segments, each a letter followed by word
characters.  (The `$`-before-trailing-newline subtlety of Python regexes
cannot arise here: the input has been stripped, or is a capture from a
newline-free character class.) -/
def pkgMatch (l : List Char) : Bool :=
  let segs := splitDots l
  decide (2 ≤ segs.length) && segs.all segOk

/-- Source `validate_package_name` (orchestrator.py lines 227-246): reject empty
input, strip, extract the `id=` query parameter if present, bound the
length by 256, and match the package-name regex.  Returns the normalized
name on success, the error message on failure. -/
def validatePackageName (s : String) : Except String String :=
  if s = "" then .error "Package name is required"
  else
    let l0 := pyStrip s.data
    let l :=
      match urlExtract l0 with
      | some g => g
      | none => l0
    if 256 < l.length then .error "Package name too long"
    else if pkgMatch l then .ok ⟨l⟩
    else .error "Invalid package name format"

/-! ## Configuration -/

/-- The environment-derived configuration scalars the orchestration layer
reads at startup (`RESULT_EXPIRATION`, `MAX_CACHED_RESULTS`,
`EXTRACTION_TIMEOUT`). -/
structure Config where
  resultExpiration : Nat
  maxCachedResults : Nat
  extractionTimeout : Nat
deriving DecidableEq

/-! ## Result cache -/

/-- One value stored in `results_cache`: the job-outcome dict written by
the worker (`status`, optional `data` payload, optional `error`, optional
`container`) plus the `_expires_at` / `_cached_at` stamps added by
`cache_result`. -/
structure CacheVal where
  status : String
  data : Option String := none
  errorMsg : Option String := none
  container : Option String := none
  expiresAt : Nat := 0
  cachedAt : Nat := 0
deriving DecidableEq

/-- The `results_cache : OrderedDict`, front = oldest / least recently touched. -/
abbrev Cache := List (String × CacheVal)

/-- Association lookup (Python `job_id in results_cache` + subscript). -/
def findVal (k : String) : Cache → Option CacheVal
  | [] => none
  | (k', v) :: rest => if k' = k then some v else findVal k rest

/-- Remove the entry with the given key (Python `del results_cache[k]`). -/
def eraseKey (k : String) : Cache → Cache
  | [] => []
  | (k', v) :: rest => if k' = k then rest else (k', v) :: eraseKey k rest

/-- Python `OrderedDict` assignment: replace in place if the key exists
(keeping its position), otherwise append at the (most-recent) end. -/
def odSet (k : String) (v : CacheVal) : Cache → Cache
  | [] => [(k, v)]
  | (k', v') :: rest => if k' = k then (k, v) :: rest else (k', v') :: odSet k v rest

/-- The cache's keys are distinct — invariantly true of an `OrderedDict`. -/
def nodupKeys (c : Cache) : Prop := (c.map Prod.fst).Nodup

instance (c : Cache) : Decidable (nodupKeys c) := by
  unfold nodupKeys; infer_instance

/-- Loop `while len(results_cache) >= MAX_CACHED_RESULTS:
results_cache.popitem(last=False)` — pop oldest entries until strictly
below the bound. -/
def evictToFit (maxN : Nat) : Cache → Cache
  | [] => []
  | e :: rest => if maxN ≤ (e :: rest).length then evictToFit maxN rest else e :: rest

/-- Source `cache_result` (lines 171-183): stamp `_expires_at := now + TTL` and
`_cached_at := now`, evict oldest entries while at or above capacity,
then store under the job id. -/
def cacheResult (cfg : Config) (jobId : String) (v : CacheVal) (now : Nat) (c : Cache) : Cache :=
  odSet jobId { v with expiresAt := now + cfg.resultExpiration, cachedAt := now }
    (evictToFit cfg.maxCachedResults c)

/-- Source `get_cached_result` (lines 186-202): miss on absence; lazily delete
and miss when `now > _expires_at`; on a live hit `move_to_end` (erase +
append) and return the value. -/
def getCachedResult (jobId : String) (now : Nat) (c : Cache) : Option CacheVal × Cache :=
  match findVal jobId c with
  | none => (none, c)
  | some v =>
    if v.expiresAt < now then (none, eraseKey jobId c)
    else (some v, eraseKey jobId c ++ [(jobId, v)])

/-- One cache operation: a `cache_result` put or a `get_cached_result`
read, each carrying the clock value at which it runs. -/
inductive CacheOp where
  | put (jobId : String) (v : CacheVal) (now : Nat)
  | get (jobId : String) (now : Nat)

/-- State effect of one cache operation. -/
def stepCache (cfg : Config) (c : Cache) : CacheOp → Cache
  | .put j v t => cacheResult cfg j v t c
  | .get j t => (getCachedResult j t c).2

/-- Run a sequence of cache operations. -/
def runCache (cfg : Config) (c : Cache) : List CacheOp → Cache
  | [] => c
  | op :: rest => runCache cfg (stepCache cfg c op) rest

/-! ## Container pool -/

/-- One entry of the `CONTAINERS` list: the worker record. -/
structure Container where
  url : String
  id : String
  busy : Bool
  healthy : Bool
  lastHealthCheck : Option Nat
  jobsCompleted : Nat
  jobsFailed : Nat
deriving DecidableEq

/-- The `ContainerPool` state: the container list plus the `stats` dict. -/
structure PoolState where
  containers : List Container
  totalJobs : Nat
  successfulJobs : Nat
  failedJobs : Nat
deriving DecidableEq

/-- Source `ContainerPool.get_available_container` (lines 99-109) acting on the
container list.  The probe oracle stands for the HTTP `GET /health` of
`_check_container_health` (lines 127-141): `some true` = HTTP 200,
`some false` = non-200 response, `none` = exception (timeout/connection
error).  The scan skips busy or unhealthy containers untouched; an
eligible container is probed (mutating its `healthy` flag, and its
`last_health_check` stamp unless the probe raised); the first eligible
container whose probe succeeds is marked busy and returned. -/
def getAvailableContainer (probe : String → Option Bool) (now : Nat) :
    List Container → Option Container × List Container
  | [] => (none, [])
  | c :: rest =>
    if c.busy = false ∧ c.healthy = true then
      match probe c.url with
      | some true =>
        let c2 : Container :=
          { c with healthy := true, lastHealthCheck := some now, busy := true }
        (some c2, c2 :: rest)
      | some false =>
        let pr := getAvailableContainer probe now rest
        (pr.1, { c with healthy := false, lastHealthCheck := some now } :: pr.2)
      | none =>
        let pr := getAvailableContainer probe now rest
        (pr.1, { c with healthy := false } :: pr.2)
    else
      let pr := getAvailableContainer probe now rest
      (pr.1, c :: pr.2)

/-- Source `get_available_container` on the whole pool state (stats untouched). -/
def poolAcquire (probe : String → Option Bool) (now : Nat) (ps : PoolState) :
    Option Container × PoolState :=
  ((getAvailableContainer probe now ps.containers).1,
   { ps with containers := (getAvailableContainer probe now ps.containers).2 })

/-- Source `ContainerPool.release_container` (lines 111-125) acting on the
container list: find the first container with the given id, clear its
busy flag and bump exactly one of its counters; the Boolean reports
whether a match was found (and hence whether the release log line was
emitted — the `logger.info` sits inside the match branch). -/
def releaseContainer (cid : String) (success : Bool) :
    List Container → List Container × Bool
  | [] => ([], false)
  | c :: rest =>
    if c.id = cid then
      ({ c with
          busy := false,
          jobsCompleted := if success then c.jobsCompleted + 1 else c.jobsCompleted,
          jobsFailed := if success then c.jobsFailed else c.jobsFailed + 1 } :: rest,
       true)
    else
      let pr := releaseContainer cid success rest
      (c :: pr.1, pr.2)

/-- Source `release_container` on the whole pool state: the `stats` counters are
updated only inside the matching branch of the loop. -/
def poolRelease (cid : String) (success : Bool) (ps : PoolState) : PoolState × Bool :=
  if (releaseContainer cid success ps.containers).2 then
    ({ containers := (releaseContainer cid success ps.containers).1,
       totalJobs := ps.totalJobs + 1,
       successfulJobs := if success then ps.successfulJobs + 1 else ps.successfulJobs,
       failedJobs := if success then ps.failedJobs else ps.failedJobs + 1 },
     true)
  else ({ ps with containers := (releaseContainer cid success ps.containers).1 }, false)

/-- One serialized pool operation (the source serializes both under
`self.lock`): an acquire (with its probe oracle and clock) or a release. -/
inductive PoolOp where
  | acq (probe : String → Option Bool) (now : Nat)
  | rel (cid : String) (success : Bool)

/-- State effect plus acquire return value of one pool operation. -/
def stepPool (ps : PoolState) : PoolOp → Option Container × PoolState
  | .acq probe now => poolAcquire probe now ps
  | .rel cid success => (none, (poolRelease cid success ps).1)

/-- Run a sequence of pool operations, keeping only the final state. -/
def runPool (ps : PoolState) : List PoolOp → PoolState
  | [] => ps
  | op :: rest => runPool (stepPool ps op).2 rest

/-- Does this operation release the container with the given id? -/
def relOf (cid : String) : PoolOp → Prop
  | .rel c _ => c = cid
  | .acq _ _ => False

/-! ## Dispatch worker -/

/-- Outcome of one `POST /extract_apk` call to a container, as the
`worker` loop distinguishes them: HTTP 200 with a JSON payload, non-200
with an error message, `requests.Timeout`, or any other exception. -/
inductive CallOutcome where
  | ok (data : String)
  | httpErr (msg : String)
  | timeout
  | exc (msg : String)

/-- The acquire-retry loop of `worker` (lines 260-269): up to `fuel`
attempts, attempt number `k` using probe oracle `probes k` at clock
`times k`; stops at the first successful acquire. -/
def acquireRetry (probes : Nat → String → Option Bool) (times : Nat → Nat) :
    Nat → Nat → PoolState → Option Container × PoolState
  | _, 0, ps => (none, ps)
  | k, fuel + 1, ps =>
    match poolAcquire (probes k) (times k) ps with
    | (some c, ps') => (some c, ps')
    | (none, ps') => acquireRetry probes times (k + 1) fuel ps'

/-- Source `max_wait = 60` attempts (line 263). -/
def maxWait : Nat := 60

/-- One iteration of the `worker` loop (lines 253-329) after dequeuing
`(job_id, package)`: retry acquisition up to `maxWait` times; on failure
cache a `failed` "No container available after timeout" entry and abandon
the job; otherwise call the container (outcome oracle `call`), cache the
outcome and release the container.  The Boolean reports whether a
container extraction call was made. -/
def workerStep (cfg : Config) (probes : Nat → String → Option Bool) (times : Nat → Nat)
    (call : Container → String → CallOutcome) (jobId pkg : String) (now : Nat)
    (cache : Cache) (ps : PoolState) : Cache × PoolState × Bool :=
  match acquireRetry probes times 0 maxWait ps with
  | (none, ps1) =>
    (cacheResult cfg jobId
      { status := "failed", errorMsg := some "No container available after timeout" } now cache,
     ps1, false)
  | (some c, ps1) =>
    match call c pkg with
    | .ok d =>
      (cacheResult cfg jobId
        { status := "completed", data := some d, container := some c.id } now cache,
       (poolRelease c.id true ps1).1, true)
    | .httpErr m =>
      (cacheResult cfg jobId
        { status := "failed", errorMsg := some m, container := some c.id } now cache,
       (poolRelease c.id false ps1).1, true)
    | .timeout =>
      (cacheResult cfg jobId
        { status := "failed",
          errorMsg := some ("Extraction timeout (" ++ toString cfg.extractionTimeout ++ "s)"),
          container := some c.id } now cache,
       (poolRelease c.id false ps1).1, true)
    | .exc m =>
      (cacheResult cfg jobId
        { status := "failed", errorMsg := some m, container := some c.id } now cache,
       (poolRelease c.id false ps1).1, true)

/-! ## HTTP endpoints -/

/-- Response of the `POST /extract` endpoint. -/
structure ExtractResp where
  code : Nat
  jobId : Option String := none
  status : Option String := none
  cached : Bool := false
  data : Option String := none
  errorMsg : Option String := none
  queuePosition : Option Nat := none
  packageOut : Option String := none
deriving DecidableEq

/-- The `extract` endpoint (lines 383-421): strip the `package` field,
validate it (400 on failure, queue untouched), build the job id
`f"{package}_{int(time.time()*1000)}"`, scan the cache front-to-back for
the first entry whose job id starts with `package + "_"` and whose status
is `completed` (no expiry check, no recency preference) and return it
with `cached = true`; otherwise enqueue `(job_id, package)` and answer
202 with the queue position (`qsize()` after the put). -/
def extract (rawPkg : String) (nowMs : Nat) (cache : Cache)
    (jobQueue : List (String × String)) : ExtractResp × List (String × String) :=
  let package := pyStripS rawPkg
  match validatePackageName package with
  | .error msg => ({ code := 400, errorMsg := some msg }, jobQueue)
  | .ok p =>
    let jobId := p ++ "_" ++ toString nowMs
    match cache.find? (fun kv => strStarts (p ++ "_") kv.1 && kv.2.status == "completed") with
    | some kv =>
      ({ code := 200, jobId := some kv.1, status := some "completed",
         cached := true, data := kv.2.data }, jobQueue)
    | none =>
      ({ code := 202, jobId := some jobId, status := some "queued",
         queuePosition := some (jobQueue.length + 1), packageOut := some p },
       jobQueue ++ [(jobId, p)])

/-- Response of the `GET /status/<job_id>` endpoint. -/
structure StatusResp where
  code : Nat
  jobId : String
  status : String
  data : Option String := none
  errorMsg : Option String := none
  container : Option String := none
  queueSize : Option Nat := none
deriving DecidableEq

/-- The `status` endpoint (lines 424-446): a cache hit (live entry)
echoes the cached entry with the internal stamp fields stripped; any
miss — never-submitted id, expired entry (lazily deleted by the read),
still-queued or in-flight job — answers HTTP 200 with status
`processing` and the current queue size. -/
def statusEndpoint (jobId : String) (now : Nat) (cache : Cache)
    (jobQueue : List (String × String)) : StatusResp × Cache :=
  match getCachedResult jobId now cache with
  | (some v, c') =>
    ({ code := 200, jobId := jobId, status := v.status, data := v.data,
       errorMsg := v.errorMsg, container := v.container }, c')
  | (none, c') =>
    ({ code := 200, jobId := jobId, status := "processing",
       queueSize := some jobQueue.length }, c')

/-! ## Cache lemmas -/

theorem findVal_odSet_self (k : String) (v : CacheVal) (c : Cache) :
    findVal k (odSet k v c) = some v := by
  induction c with
  | nil => simp [odSet, findVal]
  | cons e rest ih =>
    obtain ⟨k', v'⟩ := e
    by_cases h : k' = k
    · subst h; simp [odSet, findVal]
    · simp [odSet, findVal, h, ih]

theorem findVal_odSet_ne (k' k : String) (v : CacheVal) (c : Cache) (h : k' ≠ k) :
    findVal k' (odSet k v c) = findVal k' c := by
  have h2 : k ≠ k' := Ne.symm h
  induction c with
  | nil => simp [odSet, findVal, h2]
  | cons e rest ih =>
    obtain ⟨k0, v0⟩ := e
    by_cases h0 : k0 = k
    · subst h0
      simp [odSet, findVal, h2]
    · simp [odSet, findVal, h0, ih]

theorem findVal_eraseKey_ne (k' k : String) (c : Cache) (h : k' ≠ k) :
    findVal k' (eraseKey k c) = findVal k' c := by
  have h2 : k ≠ k' := Ne.symm h
  induction c with
  | nil => simp [eraseKey]
  | cons e rest ih =>
    obtain ⟨k0, v0⟩ := e
    by_cases h0 : k0 = k
    · subst h0
      simp [eraseKey, findVal, h2]
    · simp [eraseKey, findVal, h0, ih]

theorem findVal_append (k : String) (l1 l2 : Cache) :
    findVal k (l1 ++ l2) =
      match findVal k l1 with
      | some v => some v
      | none => findVal k l2 := by
  induction l1 with
  | nil => simp [findVal]
  | cons e rest ih =>
    obtain ⟨k0, v0⟩ := e
    by_cases h0 : k0 = k
    · simp [findVal, h0]
    · simp [findVal, h0, ih]

theorem keys_eraseKey (k : String) (c : Cache) :
    (eraseKey k c).map Prod.fst = (c.map Prod.fst).erase k := by
  induction c with
  | nil => simp [eraseKey]
  | cons e rest ih =>
    obtain ⟨k0, v0⟩ := e
    by_cases h0 : k0 = k
    · subst h0; simp [eraseKey, List.erase_cons]
    · simp [eraseKey, List.erase_cons, h0, ih]

theorem nodupKeys_eraseKey (k : String) (c : Cache) (h : nodupKeys c) :
    nodupKeys (eraseKey k c) := by
  unfold nodupKeys at *
  rw [keys_eraseKey]
  exact h.erase k

theorem findVal_eq_none_of_not_mem (k : String) (c : Cache)
    (h : k ∉ c.map Prod.fst) : findVal k c = none := by
  induction c with
  | nil => simp [findVal]
  | cons e rest ih =>
    obtain ⟨k0, v0⟩ := e
    simp only [List.map_cons, List.mem_cons] at h
    push_neg at h
    have h2 : k0 ≠ k := Ne.symm h.1
    simp [findVal, h2, ih h.2]

theorem findVal_eraseKey_self (k : String) (c : Cache) (h : nodupKeys c) :
    findVal k (eraseKey k c) = none := by
  apply findVal_eq_none_of_not_mem
  rw [keys_eraseKey]
  intro hmem
  exact ((h.mem_erase_iff).mp hmem).1 rfl

theorem nodupKeys_getCachedResult (j : String) (t : Nat) (c : Cache) (h : nodupKeys c) :
    nodupKeys (getCachedResult j t c).2 := by
  rcases hf : findVal j c with _ | v
  · simpa [getCachedResult, hf] using h
  · by_cases hexp : v.expiresAt < t
    · simpa [getCachedResult, hf, hexp] using nodupKeys_eraseKey j c h
    · have h1 := nodupKeys_eraseKey j c h
      unfold nodupKeys at *
      simp only [getCachedResult, hf]
      rw [if_neg hexp]
      simp only [List.map_append, List.map_cons, List.map_nil, List.nodup_append]
      refine ⟨h1, List.nodup_singleton j, ?_⟩
      intro a ha hb
      rw [keys_eraseKey] at ha
      simp only [List.mem_singleton] at hb
      subst hb
      exact (h.mem_erase_iff.mp ha).1 rfl

/-- The entry stored under `k` (if any) has expiry stamp `e`. -/
def expiryInv (k : String) (e : Nat) (c : Cache) : Prop :=
  ∀ v, findVal k c = some v → v.expiresAt = e

theorem expiryInv_getCachedResult (k : String) (e : Nat) (j : String) (t : Nat) (c : Cache)
    (h : expiryInv k e c) (hn : nodupKeys c) :
    expiryInv k e (getCachedResult j t c).2 := by
  rcases hf : findVal j c with _ | v
  · simpa [getCachedResult, hf] using h
  · by_cases hexp : v.expiresAt < t
    · simp only [getCachedResult, hf]
      rw [if_pos hexp]
      intro w hw
      by_cases hk : k = j
      · subst hk
        rw [findVal_eraseKey_self k c hn] at hw
        exact absurd hw (by simp)
      · rw [findVal_eraseKey_ne k j c hk] at hw
        exact h w hw
    · simp only [getCachedResult, hf]
      rw [if_neg hexp]
      intro w hw
      rw [findVal_append] at hw
      by_cases hk : k = j
      · subst hk
        rw [findVal_eraseKey_self k c hn] at hw
        simp only [findVal, if_pos rfl] at hw
        cases hw
        exact h v hf
      · rw [findVal_eraseKey_ne k j c hk] at hw
        cases hg : findVal k c with
        | none =>
          rw [hg] at hw
          have hjk : ¬ j = k := fun hx => hk hx.symm
          simp only [findVal, hjk, if_false] at hw
          cases hw
        | some w0 =>
          rw [hg] at hw
          have hww : w0 = w := by simpa using hw
          rw [← hww]
          exact h w0 hg

theorem mem_keys_odSet (a k : String) (v : CacheVal) (c : Cache)
    (h : a ∈ (odSet k v c).map Prod.fst) : a = k ∨ a ∈ c.map Prod.fst := by
  induction c with
  | nil =>
    simp only [odSet, List.map_cons, List.map_nil, List.mem_cons, List.not_mem_nil,
      or_false] at h
    exact Or.inl h
  | cons e rest ih =>
    obtain ⟨k0, v0⟩ := e
    simp only [odSet] at h
    split at h
    · simp only [List.map_cons, List.mem_cons] at h
      rcases h with h | h
      · exact Or.inl h
      · exact Or.inr (by simp only [List.map_cons, List.mem_cons]; exact Or.inr h)
    · simp only [List.map_cons, List.mem_cons] at h
      rcases h with h | h
      · exact Or.inr (by simp only [List.map_cons, List.mem_cons]; exact Or.inl h)
      · rcases ih h with h' | h'
        · exact Or.inl h'
        · exact Or.inr (by simp only [List.map_cons, List.mem_cons]; exact Or.inr h')

theorem nodupKeys_odSet (k : String) (v : CacheVal) (c : Cache) (h : nodupKeys c) :
    nodupKeys (odSet k v c) := by
  induction c with
  | nil => simp [odSet, nodupKeys]
  | cons e rest ih =>
    obtain ⟨k0, v0⟩ := e
    unfold nodupKeys at *
    simp only [List.map_cons, List.nodup_cons] at h
    simp only [odSet]
    split
    case isTrue h0 =>
      simp only [List.map_cons, List.nodup_cons]
      rw [← h0]
      exact h
    case isFalse h0 =>
      simp only [List.map_cons, List.nodup_cons]
      refine ⟨?_, ih h.2⟩
      intro hmem
      rcases mem_keys_odSet k0 k v rest hmem with h' | h'
      · exact h0 h'
      · exact h.1 h'

theorem nodupKeys_evictToFit (m : Nat) (c : Cache) (h : nodupKeys c) :
    nodupKeys (evictToFit m c) := by
  induction c with
  | nil => simpa [evictToFit] using h
  | cons e rest ih =>
    unfold nodupKeys at *
    simp only [List.map_cons, List.nodup_cons] at h
    by_cases hl : m ≤ (e :: rest).length
    · simp only [evictToFit, if_pos hl]
      exact ih h.2
    · simp only [evictToFit, if_neg hl, List.map_cons, List.nodup_cons]
      exact h

theorem nodupKeys_cacheResult (cfg : Config) (j : String) (v : CacheVal) (t : Nat)
    (c : Cache) (h : nodupKeys c) : nodupKeys (cacheResult cfg j v t c) :=
  nodupKeys_odSet j _ _ (nodupKeys_evictToFit cfg.maxCachedResults c h)

theorem length_eraseKey_le (k : String) (c : Cache) :
    (eraseKey k c).length ≤ c.length := by
  induction c with
  | nil => simp [eraseKey]
  | cons e rest ih =>
    obtain ⟨k0, v0⟩ := e
    by_cases h0 : k0 = k
    · simp [eraseKey, h0]
    · simp only [eraseKey, if_neg h0, List.length_cons]
      omega

theorem length_eraseKey_of_found (k : String) (c : Cache) (v : CacheVal)
    (h : findVal k c = some v) : (eraseKey k c).length + 1 = c.length := by
  induction c with
  | nil => simp [findVal] at h
  | cons e rest ih =>
    obtain ⟨k0, v0⟩ := e
    by_cases h0 : k0 = k
    · simp [eraseKey, h0]
    · simp only [findVal, if_neg h0] at h
      simp only [eraseKey, if_neg h0, List.length_cons]
      rw [← ih h]

theorem length_getCachedResult_le (j : String) (t : Nat) (c : Cache) :
    ((getCachedResult j t c).2).length ≤ c.length := by
  rcases hf : findVal j c with _ | v
  · simp [getCachedResult, hf]
  · by_cases hexp : v.expiresAt < t
    · simp only [getCachedResult, hf]
      rw [if_pos hexp]
      exact length_eraseKey_le j c
    · simp only [getCachedResult, hf]
      rw [if_neg hexp]
      simp only [List.length_append, List.length_cons, List.length_nil]
      have := length_eraseKey_of_found j c v hf
      omega

theorem length_odSet_le (k : String) (v : CacheVal) (c : Cache) :
    (odSet k v c).length ≤ c.length + 1 := by
  induction c with
  | nil => simp [odSet]
  | cons e rest ih =>
    obtain ⟨k0, v0⟩ := e
    by_cases h0 : k0 = k
    · simp [odSet, h0]
    · simp only [odSet, if_neg h0, List.length_cons]
      omega

theorem length_evictToFit (m : Nat) (c : Cache) (hm : 1 ≤ m) :
    (evictToFit m c).length ≤ m - 1 := by
  induction c with
  | nil => simp [evictToFit]
  | cons e rest ih =>
    by_cases hl : m ≤ (e :: rest).length
    · simp only [evictToFit, if_pos hl]
      exact ih
    · simp only [evictToFit, if_neg hl]
      simp only [List.length_cons] at hl ⊢
      omega

theorem evictToFit_of_lt (m : Nat) (c : Cache) (h : c.length < m) :
    evictToFit m c = c := by
  cases c with
  | nil => simp [evictToFit]
  | cons e rest =>
    have h2 : ¬ m ≤ (e :: rest).length := by omega
    simp only [evictToFit]
    rw [if_neg h2]

theorem length_cacheResult_le (cfg : Config) (j : String) (v : CacheVal) (t : Nat)
    (c : Cache) (hm : 1 ≤ cfg.maxCachedResults) :
    (cacheResult cfg j v t c).length ≤ cfg.maxCachedResults := by
  have h1 := length_odSet_le j
    { v with expiresAt := t + cfg.resultExpiration, cachedAt := t }
    (evictToFit cfg.maxCachedResults c)
  have h2 := length_evictToFit cfg.maxCachedResults c hm
  unfold cacheResult
  omega

theorem length_runCache_le (cfg : Config) (hm : 1 ≤ cfg.maxCachedResults)
    (ops : List CacheOp) (c : Cache) (hc : c.length ≤ cfg.maxCachedResults) :
    (runCache cfg c ops).length ≤ cfg.maxCachedResults := by
  induction ops generalizing c with
  | nil => simpa [runCache] using hc
  | cons op rest ih =>
    simp only [runCache]
    apply ih
    cases op with
    | put j v t => exact length_cacheResult_le cfg j v t c hm
    | get j t => exact le_trans (length_getCachedResult_le j t c) hc

theorem expiryInv_runGets (cfg : Config) (k : String) (e : Nat)
    (gets : List (String × Nat)) (c : Cache) (h : expiryInv k e c) (hn : nodupKeys c) :
    expiryInv k e (runCache cfg c (gets.map fun g => CacheOp.get g.1 g.2)) ∧
      nodupKeys (runCache cfg c (gets.map fun g => CacheOp.get g.1 g.2)) := by
  induction gets generalizing c with
  | nil => exact ⟨h, hn⟩
  | cons g rest ih =>
    simp only [List.map_cons, runCache, stepCache]
    exact ih ((getCachedResult g.1 g.2 c).2)
      (expiryInv_getCachedResult k e g.1 g.2 c h hn)
      (nodupKeys_getCachedResult g.1 g.2 c hn)

theorem getCachedResult_none_of_expired (j : String) (e t : Nat) (c : Cache)
    (h : expiryInv j e c) (ht : e < t) : (getCachedResult j t c).1 = none := by
  rcases hf : findVal j c with _ | v
  · simp [getCachedResult, hf]
  · have : v.expiresAt < t := by rw [h v hf]; exact ht
    simp only [getCachedResult, hf]
    rw [if_pos this]

/-! ## Claim C2 (TTL) -/

/-- C2, counterexample: the claim says a `get` at any time `≥ t0+T`
returns none, but `get_cached_result` expires an entry only when
`now > expires_at` (strict).  An entry cached at `t0 = 5` with TTL
`T = 10` is still returned by a read at exactly `t0+T = 15`. -/
theorem c2_counterexample :
    (getCachedResult "a.b_5" 15
        (cacheResult ⟨10, 1000, 180⟩ "a.b_5" { status := "completed" } 5 [])).1 =
      some { status := "completed", expiresAt := 15, cachedAt := 5 } := by
  decide

/-- C2, amended: for every cache entry inserted with TTL `T` at time
`t0` (into any well-formed cache), a `get` of its job id at any time
STRICTLY greater than `t0+T` returns none, regardless of the sequence of
`get` reads performed in between (reads may delete or reorder entries
but never refresh an expiry stamp). -/
theorem c2_ttl_strict (cfg : Config) (c0 : Cache) (h0 : nodupKeys c0) (j : String)
    (v : CacheVal) (t0 : Nat) (gets : List (String × Nat)) (t : Nat)
    (ht : t0 + cfg.resultExpiration < t) :
    (getCachedResult j t
        (runCache cfg (cacheResult cfg j v t0 c0)
          (gets.map fun g => CacheOp.get g.1 g.2))).1 = none := by
  have hstart : expiryInv j (t0 + cfg.resultExpiration) (cacheResult cfg j v t0 c0) := by
    intro w hw
    unfold cacheResult at hw
    rw [findVal_odSet_self] at hw
    cases hw
    rfl
  have hnd : nodupKeys (cacheResult cfg j v t0 c0) :=
    nodupKeys_cacheResult cfg j v t0 c0 h0
  have hrun := expiryInv_runGets cfg j (t0 + cfg.resultExpiration) gets
    (cacheResult cfg j v t0 c0) hstart hnd
  exact getCachedResult_none_of_expired j (t0 + cfg.resultExpiration) t _ hrun.1 ht

/-- C2 witness: a concrete instantiation of `c2_ttl_strict` — insert at
`t0 = 0` with TTL 10, read twice in between, then read at `t = 11`. -/
theorem c2_ttl_strict_witness :
    (getCachedResult "a.b_0" 11
        (runCache ⟨10, 1000, 180⟩
          (cacheResult ⟨10, 1000, 180⟩ "a.b_0" { status := "completed" } 0 [])
          ([("a.b_0", 3), ("other", 7)].map fun g => CacheOp.get g.1 g.2))).1 = none :=
  c2_ttl_strict ⟨10, 1000, 180⟩ [] (by decide) "a.b_0" { status := "completed" } 0
    [("a.b_0", 3), ("other", 7)] 11 (by decide)

/-! ## Claim C3 (capacity and LRU eviction) -/

/-- C3: (1) starting from the empty cache, after any sequence of
`cache_result` puts and `get_cached_result` reads the cache holds at
most `MAX_CACHED_RESULTS` entries; (2) a put into a cache at capacity
evicts the front entry — the least-recently-touched one, since a read
that finds a live entry moves it to the back (`move_to_end`) and puts
append at the back: after the put, the old front key is gone (when it
is not the key being written). -/
theorem c3_capacity_lru (cfg : Config) (hm : 1 ≤ cfg.maxCachedResults) :
    (∀ ops : List CacheOp, (runCache cfg [] ops).length ≤ cfg.maxCachedResults) ∧
    (∀ (k0 : String) (v0 : CacheVal) (rest : Cache) (j : String) (v : CacheVal) (t : Nat),
      nodupKeys ((k0, v0) :: rest) →
      ((k0, v0) :: rest).length = cfg.maxCachedResults →
      k0 ≠ j →
      findVal k0 (cacheResult cfg j v t ((k0, v0) :: rest)) = none) := by
  constructor
  · intro ops
    exact length_runCache_le cfg hm ops [] (by simp)
  · intro k0 v0 rest j v t hnd hlen hne
    unfold cacheResult
    have h1 : evictToFit cfg.maxCachedResults ((k0, v0) :: rest) = rest := by
      have hle : cfg.maxCachedResults ≤ ((k0, v0) :: rest).length := le_of_eq hlen.symm
      simp only [evictToFit, if_pos hle]
      apply evictToFit_of_lt
      simp only [List.length_cons] at hlen
      omega
    rw [h1, findVal_odSet_ne k0 j _ rest hne]
    apply findVal_eq_none_of_not_mem
    unfold nodupKeys at hnd
    simp only [List.map_cons, List.nodup_cons] at hnd
    exact hnd.1

/-- C3 witness: capacity 2; three puts stay within the bound, and a put
into the full cache `[a.b_1, c.d_2]` evicts the least-recently-touched
key `a.b_1`. -/
theorem c3_capacity_lru_witness :
    (runCache ⟨100, 2, 180⟩ []
        [CacheOp.put "a.b_1" { status := "completed" } 1,
         CacheOp.put "c.d_2" { status := "completed" } 2,
         CacheOp.put "e.f_3" { status := "completed" } 3]).length ≤ 2 ∧
      findVal "a.b_1"
        (cacheResult ⟨100, 2, 180⟩ "e.f_3" { status := "completed" } 3
          [("a.b_1", { status := "completed" }), ("c.d_2", { status := "completed" })]) =
        none :=
  ⟨(c3_capacity_lru ⟨100, 2, 180⟩ (by decide)).1 _,
   (c3_capacity_lru ⟨100, 2, 180⟩ (by decide)).2 "a.b_1" { status := "completed" }
     [("c.d_2", { status := "completed" })] "e.f_3" { status := "completed" } 3
     (by decide) (by decide) (by decide)⟩

/-! ## Claims C1 and C9 (submission dedup) -/

/-- Demo configuration: TTL 10, capacity 1000, extraction timeout 180. -/
def demoCfg : Config := ⟨10, 1000, 180⟩

/-- A cache holding two completed entries for request key `com.a`: one
cached at `t=1` (job id `com.a_1`, expires at 11) and one cached at
`t=40` (job id `com.a_40`, expires at 50). -/
def c1Cache : Cache :=
  cacheResult demoCfg "com.a_40" { status := "completed", data := some "new" } 40
    (cacheResult demoCfg "com.a_1" { status := "completed", data := some "old" } 1 [])

/-- C1, counterexample: submitting `com.a` at time 45 returns the cached
entry `com.a_1`, which expired at 11 (< 45) and is older than the
also-matching completed entry `com.a_40` — the dedup scan takes the
FIRST match in cache order and never checks expiry, refuting "the entry
it returns is the most recent such completed entry and is unexpired". -/
theorem c1_counterexample :
    (extract "com.a" 45 c1Cache []).1.cached = true ∧
    (extract "com.a" 45 c1Cache []).1.jobId = some "com.a_1" ∧
    (extract "com.a" 45 c1Cache []).1.data = some "old" ∧
    findVal "com.a_1" c1Cache =
      some { status := "completed", data := some "old", expiresAt := 11, cachedAt := 1 } ∧
    (11 : Nat) < 45 ∧
    findVal "com.a_40" c1Cache =
      some { status := "completed", data := some "new", expiresAt := 50, cachedAt := 40 } := by
  decide

/-- C1, amended: for every submission whose request key has a cache
entry with status `completed` and a job id starting with the key plus
`"_"`, the submit operation returns the FIRST such entry in cache order
(the least-recently-touched match, with no expiry check), marked cached,
without enqueuing a new job. -/
theorem c1_dedup_first_match (raw : String) (nowMs : Nat) (cache : Cache)
    (q : List (String × String)) (p : String) (kv : String × CacheVal)
    (hv : validatePackageName (pyStripS raw) = .ok p)
    (hfind : cache.find?
        (fun e => strStarts (p ++ "_") e.1 && e.2.status == "completed") = some kv) :
    extract raw nowMs cache q =
      ({ code := 200, jobId := some kv.1, status := some "completed",
         cached := true, data := kv.2.data }, q) := by
  simp only [extract, hv, hfind]

/-- C1 witness: `c1_dedup_first_match` applied at the concrete state of
the counterexample. -/
theorem c1_dedup_first_match_witness :
    extract "com.a" 45 c1Cache [] =
      ({ code := 200, jobId := some "com.a_1", status := some "completed",
         cached := true, data := some "old" }, []) :=
  c1_dedup_first_match "com.a" 45 c1Cache [] "com.a"
    ("com.a_1", { status := "completed", data := some "old", expiresAt := 11, cachedAt := 1 })
    rfl (by decide)

/-- A cache holding one completed entry produced for a submission of
request key `com.a_x`, with the job id `extract` derives for it at
millisecond clock 1000. -/
def c9Cache : Cache :=
  cacheResult demoCfg ("com.a_x" ++ "_" ++ toString 1000)
    { status := "completed", data := some "QDATA" } 1 []

/-- C9: `com.a` and `com.a_x` are two distinct valid package names, yet
a completed cache entry produced for a submission of `com.a_x` (job id
`com.a_x_1000`) is returned, marked cached, for a later submission of
`com.a` — because the dedup scan textually matches the prefix
`"com.a" ++ "_"` against whole job ids instead of parsing out the job
id's package component.  No new job is enqueued for `com.a`. -/
theorem c9_cross_package_dedup :
    validatePackageName "com.a" = .ok "com.a" ∧
    validatePackageName "com.a_x" = .ok "com.a_x" ∧
    "com.a" ≠ "com.a_x" ∧
    (extract "com.a" 2000 c9Cache []).1.cached = true ∧
    (extract "com.a" 2000 c9Cache []).1.jobId = some "com.a_x_1000" ∧
    (extract "com.a" 2000 c9Cache []).1.data = some "QDATA" ∧
    (extract "com.a" 2000 c9Cache []).2 = [] :=
  ⟨rfl, rfl, by decide, by decide, by decide, by decide, by decide⟩

/-! ## Claim C8 (validation errors are rejected synchronously) -/

/-- C8: for every submission whose (stripped) request key fails
`validate_package_name`, the `extract` endpoint returns HTTP 400 with
the validation error message and the job queue is returned unchanged —
no job is enqueued for a malformed key. -/
theorem c8_validation_rejected (raw : String) (nowMs : Nat) (cache : Cache)
    (q : List (String × String)) (msg : String)
    (hv : validatePackageName (pyStripS raw) = .error msg) :
    extract raw nowMs cache q = ({ code := 400, errorMsg := some msg }, q) := by
  simp only [extract, hv]

/-- C8 witness: the single-segment key `notapackage` is rejected with a
400 and a non-empty queue is left untouched. -/
theorem c8_validation_rejected_witness :
    extract "notapackage" 99 [] [("j0", "p0")] =
      ({ code := 400, errorMsg := some "Invalid package name format" }, [("j0", "p0")]) :=
  c8_validation_rejected "notapackage" 99 [] [("j0", "p0")]
    "Invalid package name format" rfl

/-! ## Claim C10 (status endpoint never reports not-found) -/

/-- C10: the `status` endpoint always answers HTTP 200; whenever the
cache read misses — id never submitted, or entry expired (the read
lazily deletes it) — the reported status is `processing`; a live entry
reports its own cached status.  In particular a completed job's status
reverts from `completed` to `processing` once its cache entry expires. -/
theorem c10_status_always_200 (j : String) (now : Nat) (c : Cache)
    (q : List (String × String)) :
    ((statusEndpoint j now c q).1.code = 200) ∧
    ((getCachedResult j now c).1 = none →
      (statusEndpoint j now c q).1.status = "processing") ∧
    (∀ v, findVal j c = some v → v.expiresAt < now →
      (statusEndpoint j now c q).1.status = "processing") ∧
    (∀ v, findVal j c = some v → ¬ v.expiresAt < now →
      (statusEndpoint j now c q).1.status = v.status) := by
  refine ⟨?_, ?_, ?_, ?_⟩
  · rcases hf : findVal j c with _ | v
    · simp [statusEndpoint, getCachedResult, hf]
    · by_cases hexp : v.expiresAt < now
      · simp [statusEndpoint, getCachedResult, hf, hexp]
      · simp [statusEndpoint, getCachedResult, hf, hexp]
  · intro hn
    rcases hf : findVal j c with _ | v
    · simp [statusEndpoint, getCachedResult, hf]
    · by_cases hexp : v.expiresAt < now
      · simp [statusEndpoint, getCachedResult, hf, hexp]
      · exfalso
        simp [getCachedResult, hf, hexp] at hn
  · intro v hf hexp
    simp [statusEndpoint, getCachedResult, hf, hexp]
  · intro v hf hexp
    simp [statusEndpoint, getCachedResult, hf, hexp]

/-- C10 witness: a never-submitted id reports 200/`processing`, and a
`completed` entry that has expired (expiry 11, read at 50) also reports
200/`processing`. -/
theorem c10_status_always_200_witness :
    ((statusEndpoint "ghost_1" 5 [] []).1.code = 200 ∧
      (statusEndpoint "ghost_1" 5 [] []).1.status = "processing") ∧
    (statusEndpoint "a.b_1" 50
        [("a.b_1", { status := "completed", expiresAt := 11, cachedAt := 1 })]
        []).1.status = "processing" :=
  ⟨⟨(c10_status_always_200 "ghost_1" 5 [] []).1,
    (c10_status_always_200 "ghost_1" 5 [] []).2.1 (by decide)⟩,
   (c10_status_always_200 "a.b_1" 50
      [("a.b_1", { status := "completed", expiresAt := 11, cachedAt := 1 })] []).2.2.1
     { status := "completed", expiresAt := 11, cachedAt := 1 } (by decide) (by decide)⟩

/-! ## Pool lemmas -/

theorem gac_cons_skip (probe : String → Option Bool) (now : Nat) (c : Container)
    (rest : List Container) (he : ¬(c.busy = false ∧ c.healthy = true)) :
    getAvailableContainer probe now (c :: rest) =
      ((getAvailableContainer probe now rest).1,
       c :: (getAvailableContainer probe now rest).2) := by
  simp [getAvailableContainer, he]

theorem gac_cons_hit (probe : String → Option Bool) (now : Nat) (c : Container)
    (rest : List Container) (he : c.busy = false ∧ c.healthy = true)
    (hp : probe c.url = some true) :
    getAvailableContainer probe now (c :: rest) =
      (some { c with healthy := true, lastHealthCheck := some now, busy := true },
       { c with healthy := true, lastHealthCheck := some now, busy := true } :: rest) := by
  simp [getAvailableContainer, he, hp]

theorem gac_cons_probeFalse (probe : String → Option Bool) (now : Nat) (c : Container)
    (rest : List Container) (he : c.busy = false ∧ c.healthy = true)
    (hp : probe c.url = some false) :
    getAvailableContainer probe now (c :: rest) =
      ((getAvailableContainer probe now rest).1,
       { c with healthy := false, lastHealthCheck := some now }
         :: (getAvailableContainer probe now rest).2) := by
  simp [getAvailableContainer, he, hp]

theorem gac_cons_probeExc (probe : String → Option Bool) (now : Nat) (c : Container)
    (rest : List Container) (he : c.busy = false ∧ c.healthy = true)
    (hp : probe c.url = none) :
    getAvailableContainer probe now (c :: rest) =
      ((getAvailableContainer probe now rest).1,
       { c with healthy := false } :: (getAvailableContainer probe now rest).2) := by
  simp [getAvailableContainer, he, hp]

/-- A container is acquirable at scan time when it is idle, marked
healthy, and its fresh health probe answers HTTP 200. -/
def acquirable (probe : String → Option Bool) (c : Container) : Prop :=
  c.busy = false ∧ c.healthy = true ∧ probe c.url = some true

instance (probe : String → Option Bool) (c : Container) : Decidable (acquirable probe c) := by
  unfold acquirable; infer_instance

theorem gac_none_iff (probe : String → Option Bool) (now : Nat) (l : List Container) :
    (getAvailableContainer probe now l).1 = none ↔ ∀ c ∈ l, ¬ acquirable probe c := by
  induction l with
  | nil => simp [getAvailableContainer]
  | cons c rest ih =>
    by_cases he : c.busy = false ∧ c.healthy = true
    · rcases hp : probe c.url with _ | b
      · rw [gac_cons_probeExc probe now c rest he hp]
        simp only [List.forall_mem_cons, ih]
        have hc : ¬ acquirable probe c := by
          intro ha
          rw [ha.2.2] at hp
          cases hp
        tauto
      · cases b
        · rw [gac_cons_probeFalse probe now c rest he hp]
          simp only [List.forall_mem_cons, ih]
          have hc : ¬ acquirable probe c := by
            intro ha
            rw [ha.2.2] at hp
            cases hp
          tauto
        · rw [gac_cons_hit probe now c rest he hp]
          simp only [List.forall_mem_cons]
          constructor
          · intro h
            cases h
          · intro h
            exact absurd ⟨he.1, he.2, hp⟩ h.1
    · rw [gac_cons_skip probe now c rest he]
      simp only [List.forall_mem_cons, ih]
      have hc : ¬ acquirable probe c := by
        intro ha
        exact he ⟨ha.1, ha.2.1⟩
      tauto

theorem gac_some_spec (probe : String → Option Bool) (now : Nat) (l : List Container)
    (w : Container) (hw : (getAvailableContainer probe now l).1 = some w) :
    w.busy = true ∧ probe w.url = some true ∧
      ∃ l1 c l2, l = l1 ++ c :: l2 ∧ acquirable probe c ∧
        (∀ c' ∈ l1, ¬ acquirable probe c') ∧
        w = { c with healthy := true, lastHealthCheck := some now, busy := true } := by
  induction l with
  | nil => simp [getAvailableContainer] at hw
  | cons c rest ih =>
    by_cases he : c.busy = false ∧ c.healthy = true
    · rcases hp : probe c.url with _ | b
      · rw [gac_cons_probeExc probe now c rest he hp] at hw
        obtain ⟨hb, hu, l1, c0, l2, hsplit, hacq, hskip, hwv⟩ := ih hw
        refine ⟨hb, hu, c :: l1, c0, l2, by rw [hsplit]; rfl, hacq, ?_, hwv⟩
        intro c' hc'
        rcases List.mem_cons.mp hc' with rfl | hc2
        · intro ha
          rw [ha.2.2] at hp
          cases hp
        · exact hskip c' hc2
      · cases b
        · rw [gac_cons_probeFalse probe now c rest he hp] at hw
          obtain ⟨hb, hu, l1, c0, l2, hsplit, hacq, hskip, hwv⟩ := ih hw
          refine ⟨hb, hu, c :: l1, c0, l2, by rw [hsplit]; rfl, hacq, ?_, hwv⟩
          intro c' hc'
          rcases List.mem_cons.mp hc' with rfl | hc2
          · intro ha
            rw [ha.2.2] at hp
            cases hp
          · exact hskip c' hc2
        · rw [gac_cons_hit probe now c rest he hp] at hw
          cases hw
          refine ⟨rfl, hp, [], c, rest, rfl, ⟨he.1, he.2, hp⟩, ?_, rfl⟩
          intro c' hc'
          cases hc'
    · rw [gac_cons_skip probe now c rest he] at hw
      obtain ⟨hb, hu, l1, c0, l2, hsplit, hacq, hskip, hwv⟩ := ih hw
      refine ⟨hb, hu, c :: l1, c0, l2, by rw [hsplit]; rfl, hacq, ?_, hwv⟩
      intro c' hc'
      rcases List.mem_cons.mp hc' with rfl | hc2
      · intro ha
        exact he ⟨ha.1, ha.2.1⟩
      · exact hskip c' hc2

/-! ## Claim C4 (acquire semantics) -/

/-- A one-container pool: idle, marked healthy. -/
def c4Pool : List Container :=
  [{ url := "u1", id := "android-1", busy := false, healthy := true,
     lastHealthCheck := none, jobsCompleted := 0, jobsFailed := 0 }]

/-- C4, counterexample: the pool holds a worker with `healthy = true` and
`busy = false`, yet `get_available_container` returns none when the
worker's fresh probe fails — refuting "returns none exactly when no
worker satisfies healthy=true and busy=false at scan time" — and it
mutates the pool (the worker's `healthy` flag is flipped to false),
refuting "acquire performs no other state change". -/
theorem c4_counterexample :
    ((c4Pool.head?.map Container.busy = some false) ∧
      (c4Pool.head?.map Container.healthy = some true)) ∧
    (getAvailableContainer (fun _ => some false) 7 c4Pool).1 = none ∧
    (getAvailableContainer (fun _ => some false) 7 c4Pool).2 ≠ c4Pool := by
  decide

/-- C4, amended: `get_available_container` scans the pool in order and
returns the first worker that is `busy = false`, `healthy = true` AND
whose fresh health probe succeeds, marking it busy (and updating its
health fields) before returning; it returns none exactly when no worker
passes all three tests; workers skipped because their probe failed have
their `healthy` flag cleared along the way. -/
theorem c4_acquire_first_probed (probe : String → Option Bool) (now : Nat)
    (l : List Container) :
    ((getAvailableContainer probe now l).1 = none ↔ ∀ c ∈ l, ¬ acquirable probe c) ∧
    (∀ w, (getAvailableContainer probe now l).1 = some w →
      w.busy = true ∧ probe w.url = some true ∧
        ∃ l1 c l2, l = l1 ++ c :: l2 ∧ acquirable probe c ∧
          (∀ c' ∈ l1, ¬ acquirable probe c') ∧
          w = { c with healthy := true, lastHealthCheck := some now, busy := true }) :=
  ⟨gac_none_iff probe now l, fun w hw => gac_some_spec probe now l w hw⟩

/-- C4 witness: with every probe failing, `c4_acquire_first_probed`
yields that acquire on the (idle, healthy) demo pool returns none. -/
theorem c4_acquire_first_probed_witness :
    (getAvailableContainer (fun _ => some false) 7 c4Pool).1 = none :=
  ((c4_acquire_first_probed (fun _ => some false) 7 c4Pool).1).mpr (by decide)

/-! ## Claim C6 (release semantics) -/

theorem releaseContainer_not_found (cid : String) (s : Bool) (l : List Container)
    (h : ∀ c ∈ l, c.id ≠ cid) : releaseContainer cid s l = (l, false) := by
  induction l with
  | nil => rfl
  | cons c rest ih =>
    have hc : ¬ c.id = cid := h c (by simp)
    have hrest := ih fun c' hc' => h c' (by simp [hc'])
    simp [releaseContainer, hc, hrest]

theorem releaseContainer_found (cid : String) (s : Bool) (l : List Container)
    (h : ∃ c ∈ l, c.id = cid) :
    ∃ l1 c l2, l = l1 ++ c :: l2 ∧ c.id = cid ∧ (∀ c' ∈ l1, c'.id ≠ cid) ∧
      releaseContainer cid s l =
        (l1 ++ { c with
            busy := false,
            jobsCompleted := if s then c.jobsCompleted + 1 else c.jobsCompleted,
            jobsFailed := if s then c.jobsFailed else c.jobsFailed + 1 } :: l2,
         true) := by
  induction l with
  | nil => simp at h
  | cons c rest ih =>
    by_cases hc : c.id = cid
    · refine ⟨[], c, rest, rfl, hc, by simp, ?_⟩
      simp [releaseContainer, hc]
    · obtain ⟨c0, hc0, hid⟩ : ∃ c0 ∈ rest, c0.id = cid := by
        rcases h with ⟨c1, hc1, hid1⟩
        rcases List.mem_cons.mp hc1 with rfl | hm
        · exact absurd hid1 hc
        · exact ⟨c1, hm, hid1⟩
      obtain ⟨l1, c1, l2, hsplit, hid1, hskip, heq⟩ := ih ⟨c0, hc0, hid⟩
      refine ⟨c :: l1, c1, l2, by rw [hsplit]; rfl, hid1, ?_, ?_⟩
      · intro c' hc'
        rcases List.mem_cons.mp hc' with rfl | hm
        · exact hc
        · exact hskip c' hm
      · simp [releaseContainer, hc, heq]

theorem poolRelease_containers (cid : String) (s : Bool) (ps : PoolState) :
    (poolRelease cid s ps).1.containers = (releaseContainer cid s ps.containers).1 := by
  unfold poolRelease
  by_cases h2 : (releaseContainer cid s ps.containers).2
  · simp [h2]
  · simp [h2]

/-- The per-container monotonicity relation: same worker id, and neither
job counter has decreased. -/
def countMono (a b : Container) : Prop :=
  a.id = b.id ∧ a.jobsCompleted ≤ b.jobsCompleted ∧ a.jobsFailed ≤ b.jobsFailed

theorem forall2_countMono_refl (l : List Container) : List.Forall₂ countMono l l := by
  induction l with
  | nil => exact List.Forall₂.nil
  | cons c rest ih => exact List.Forall₂.cons ⟨rfl, le_refl _, le_refl _⟩ ih

theorem forall2_countMono_gac (probe : String → Option Bool) (now : Nat)
    (l : List Container) :
    List.Forall₂ countMono l (getAvailableContainer probe now l).2 := by
  induction l with
  | nil => exact List.Forall₂.nil
  | cons c rest ih =>
    by_cases he : c.busy = false ∧ c.healthy = true
    · rcases hp : probe c.url with _ | b
      · rw [gac_cons_probeExc probe now c rest he hp]
        exact List.Forall₂.cons ⟨rfl, le_refl _, le_refl _⟩ ih
      · cases b
        · rw [gac_cons_probeFalse probe now c rest he hp]
          exact List.Forall₂.cons ⟨rfl, le_refl _, le_refl _⟩ ih
        · rw [gac_cons_hit probe now c rest he hp]
          exact List.Forall₂.cons ⟨rfl, le_refl _, le_refl _⟩ (forall2_countMono_refl rest)
    · rw [gac_cons_skip probe now c rest he]
      exact List.Forall₂.cons ⟨rfl, le_refl _, le_refl _⟩ ih

theorem forall2_countMono_release (cid : String) (s : Bool) (l : List Container) :
    List.Forall₂ countMono l (releaseContainer cid s l).1 := by
  induction l with
  | nil => exact List.Forall₂.nil
  | cons c rest ih =>
    by_cases hc : c.id = cid
    · simp only [releaseContainer, if_pos hc]
      refine List.Forall₂.cons ⟨rfl, ?_, ?_⟩ (forall2_countMono_refl rest)
      · cases s <;> simp
      · cases s <;> simp
    · simp only [releaseContainer, if_neg hc]
      exact List.Forall₂.cons ⟨rfl, le_refl _, le_refl _⟩ ih

/-- C6, counterexample: releasing an unknown worker id leaves every
record unchanged, but — contrary to the claim — emits NO log line: the
source's `logger.info` sits inside the id-match branch, so a release
with an unknown id is silent. -/
theorem c6_counterexample :
    (poolRelease "android-99" true ⟨c4Pool, 0, 0, 0⟩).2 = false ∧
    (poolRelease "android-99" true ⟨c4Pool, 0, 0, 0⟩).1 = ⟨c4Pool, 0, 0, 0⟩ := by
  decide

/-- C6, amended: releasing a known worker id clears that worker's busy
flag and bumps exactly one of its two job counters by exactly one
(`jobs_completed` on success, `jobs_failed` otherwise), leaving every
other record untouched; counters never decrease under any pool
operation; releasing an unknown id leaves the whole pool state unchanged
and emits no log line (the release log only fires on a match). -/
theorem c6_release_spec (ps : PoolState) (cid : String) (s : Bool) :
    ((∀ c ∈ ps.containers, c.id ≠ cid) → poolRelease cid s ps = (ps, false)) ∧
    ((∃ c ∈ ps.containers, c.id = cid) →
      (poolRelease cid s ps).2 = true ∧
      ∃ l1 c l2, ps.containers = l1 ++ c :: l2 ∧ c.id = cid ∧
        (∀ c' ∈ l1, c'.id ≠ cid) ∧
        (poolRelease cid s ps).1.containers =
          l1 ++ { c with
              busy := false,
              jobsCompleted := if s then c.jobsCompleted + 1 else c.jobsCompleted,
              jobsFailed := if s then c.jobsFailed else c.jobsFailed + 1 } :: l2 ∧
        (if s then c.jobsCompleted + 1 else c.jobsCompleted) +
            (if s then c.jobsFailed else c.jobsFailed + 1) =
          c.jobsCompleted + c.jobsFailed + 1) ∧
    (∀ op : PoolOp, List.Forall₂ countMono ps.containers (stepPool ps op).2.containers) := by
  refine ⟨?_, ?_, ?_⟩
  · intro h
    have hr := releaseContainer_not_found cid s ps.containers h
    unfold poolRelease
    rw [hr]
    simp
  · intro h
    obtain ⟨l1, c, l2, hsplit, hid, hskip, heq⟩ := releaseContainer_found cid s ps.containers h
    have h2 : (releaseContainer cid s ps.containers).2 = true := by rw [heq]
    refine ⟨?_, l1, c, l2, hsplit, hid, hskip, ?_, ?_⟩
    · unfold poolRelease
      rw [if_pos h2]
    · rw [poolRelease_containers, heq]
    · cases s <;> simp <;> omega
  · intro op
    cases op with
    | acq probe now => exact forall2_countMono_gac probe now ps.containers
    | rel cid' s' =>
      simp only [stepPool, poolRelease_containers]
      exact forall2_countMono_release cid' s' ps.containers

/-- C6 witness: `c6_release_spec` at a concrete pool — an unknown id is
a silent no-op, and a successful release is logged with `busy` cleared
and `jobs_completed` bumped. -/
theorem c6_release_spec_witness :
    poolRelease "android-99" false ⟨c4Pool, 0, 0, 0⟩ = (⟨c4Pool, 0, 0, 0⟩, false) ∧
    (poolRelease "android-1" true ⟨c4Pool, 3, 2, 1⟩).2 = true :=
  ⟨(c6_release_spec ⟨c4Pool, 0, 0, 0⟩ "android-99" false).1 (by decide),
   ((c6_release_spec ⟨c4Pool, 3, 2, 1⟩ "android-1" true).2.1
     ⟨{ url := "u1", id := "android-1", busy := false, healthy := true,
        lastHealthCheck := none, jobsCompleted := 0, jobsFailed := 0 },
      by decide, rfl⟩).1⟩

/-! ## Claim C7 (no worker available) -/

theorem gac_all_blocked (probe : String → Option Bool) (now : Nat) (l : List Container)
    (h : ∀ c ∈ l, c.busy = true ∨ c.healthy = false) :
    getAvailableContainer probe now l = (none, l) := by
  induction l with
  | nil => rfl
  | cons c rest ih =>
    have he : ¬(c.busy = false ∧ c.healthy = true) := by
      intro ha
      rcases h c (by simp) with hb | hh
      · rw [hb] at ha
        cases ha.1
      · rw [hh] at ha
        cases ha.2
    have hrest := ih fun c' hc' => h c' (by simp [hc'])
    rw [gac_cons_skip probe now c rest he, hrest]

theorem poolAcquire_all_blocked (probe : String → Option Bool) (now : Nat) (ps : PoolState)
    (h : ∀ c ∈ ps.containers, c.busy = true ∨ c.healthy = false) :
    poolAcquire probe now ps = (none, ps) := by
  unfold poolAcquire
  rw [gac_all_blocked probe now ps.containers h]

theorem acquireRetry_all_blocked (probes : Nat → String → Option Bool) (times : Nat → Nat)
    (k fuel : Nat) (ps : PoolState)
    (h : ∀ c ∈ ps.containers, c.busy = true ∨ c.healthy = false) :
    acquireRetry probes times k fuel ps = (none, ps) := by
  induction fuel generalizing k with
  | zero => rfl
  | succ n ih =>
    simp only [acquireRetry]
    rw [poolAcquire_all_blocked (probes k) (times k) ps h]
    exact ih (k + 1)

/-- C7: when every worker stays busy or unhealthy (so no acquire can
succeed during the whole 60-attempt retry ceiling), the dispatch
iteration writes a `failed` result-cache entry for the job whose error
is the recognizable `"No container available after timeout"` reason,
makes no extraction call, and leaves the pool untouched — the job is
abandoned, not dropped silently and not retried forever. -/
theorem c7_no_container (cfg : Config) (probes : Nat → String → Option Bool)
    (times : Nat → Nat) (call : Container → String → CallOutcome)
    (jobId pkg : String) (now : Nat) (cache : Cache) (ps : PoolState)
    (h : ∀ c ∈ ps.containers, c.busy = true ∨ c.healthy = false) :
    workerStep cfg probes times call jobId pkg now cache ps =
      (cacheResult cfg jobId
        { status := "failed", errorMsg := some "No container available after timeout" }
        now cache,
       ps, false) ∧
    findVal jobId (workerStep cfg probes times call jobId pkg now cache ps).1 =
      some { status := "failed",
             errorMsg := some "No container available after timeout",
             expiresAt := now + cfg.resultExpiration, cachedAt := now } := by
  have hr := acquireRetry_all_blocked probes times 0 maxWait ps h
  constructor
  · simp only [workerStep, hr]
  · simp only [workerStep, hr, cacheResult]
    rw [findVal_odSet_self]

/-- C7 witness: a pool whose only worker is busy; the job resolves to a
cached `failed` entry with the "no container available" error. -/
theorem c7_no_container_witness :
    findVal "com.a_3"
      (workerStep demoCfg (fun _ _ => some true) (fun _ => 0)
        (fun _ _ => CallOutcome.ok "d") "com.a_3" "com.a" 3 []
        ⟨[{ url := "u1", id := "android-1", busy := true, healthy := true,
            lastHealthCheck := none, jobsCompleted := 0, jobsFailed := 0 }], 0, 0, 0⟩).1 =
      some { status := "failed",
             errorMsg := some "No container available after timeout",
             expiresAt := 13, cachedAt := 3 } :=
  (c7_no_container demoCfg (fun _ _ => some true) (fun _ => 0)
    (fun _ _ => CallOutcome.ok "d") "com.a_3" "com.a" 3 []
    ⟨[{ url := "u1", id := "android-1", busy := true, healthy := true,
        lastHealthCheck := none, jobsCompleted := 0, jobsFailed := 0 }], 0, 0, 0⟩
    (by decide)).2

/-! ## Claim C5 (mutual exclusion) -/

/-- Some container with the given id is currently marked busy. -/
def busyId (ps : PoolState) (cid : String) : Prop :=
  ∃ c, c ∈ ps.containers ∧ c.id = cid ∧ c.busy = true

theorem gac_mem_mono (probe : String → Option Bool) (now : Nat) (l : List Container) :
    ∀ c ∈ l, ∃ c', c' ∈ (getAvailableContainer probe now l).2 ∧ c'.id = c.id ∧
      (c.busy = true → c'.busy = true) := by
  induction l with
  | nil =>
    intro c hc
    cases hc
  | cons c0 rest ih =>
    intro c hc
    rcases List.mem_cons.mp hc with rfl | hm
    · by_cases he : c.busy = false ∧ c.healthy = true
      · rcases hp : probe c.url with _ | b
        · rw [gac_cons_probeExc probe now c rest he hp]
          exact ⟨{ c with healthy := false }, by simp, rfl, fun hb => hb⟩
        · cases b
          · rw [gac_cons_probeFalse probe now c rest he hp]
            exact ⟨{ c with healthy := false, lastHealthCheck := some now },
              by simp, rfl, fun hb => hb⟩
          · rw [gac_cons_hit probe now c rest he hp]
            exact ⟨{ c with healthy := true, lastHealthCheck := some now, busy := true },
              by simp, rfl, fun _ => rfl⟩
      · rw [gac_cons_skip probe now c rest he]
        exact ⟨c, by simp, rfl, fun hb => hb⟩
    · by_cases he : c0.busy = false ∧ c0.healthy = true
      · rcases hp : probe c0.url with _ | b
        · obtain ⟨c', hc', hid, hb⟩ := ih c hm
          rw [gac_cons_probeExc probe now c0 rest he hp]
          exact ⟨c', by simp [hc'], hid, hb⟩
        · cases b
          · obtain ⟨c', hc', hid, hb⟩ := ih c hm
            rw [gac_cons_probeFalse probe now c0 rest he hp]
            exact ⟨c', by simp [hc'], hid, hb⟩
          · rw [gac_cons_hit probe now c0 rest he hp]
            exact ⟨c, by simp [hm], rfl, fun hb => hb⟩
      · obtain ⟨c', hc', hid, hb⟩ := ih c hm
        rw [gac_cons_skip probe now c0 rest he]
        exact ⟨c', by simp [hc'], hid, hb⟩

theorem gac_some_mem (probe : String → Option Bool) (now : Nat) (l : List Container)
    (w : Container) (hw : (getAvailableContainer probe now l).1 = some w) :
    w ∈ (getAvailableContainer probe now l).2 := by
  induction l with
  | nil => simp [getAvailableContainer] at hw
  | cons c rest ih =>
    by_cases he : c.busy = false ∧ c.healthy = true
    · rcases hp : probe c.url with _ | b
      · rw [gac_cons_probeExc probe now c rest he hp] at hw ⊢
        exact List.mem_cons_of_mem _ (ih hw)
      · cases b
        · rw [gac_cons_probeFalse probe now c rest he hp] at hw ⊢
          exact List.mem_cons_of_mem _ (ih hw)
        · rw [gac_cons_hit probe now c rest he hp] at hw ⊢
          cases hw
          exact List.mem_cons_self _ _
    · rw [gac_cons_skip probe now c rest he] at hw ⊢
      exact List.mem_cons_of_mem _ (ih hw)

theorem releaseContainer_mem_ne (cid : String) (s : Bool) (l : List Container)
    (c : Container) (hc : c ∈ l) (hne : c.id ≠ cid) :
    c ∈ (releaseContainer cid s l).1 := by
  induction l with
  | nil => cases hc
  | cons c0 rest ih =>
    by_cases h0 : c0.id = cid
    · simp only [releaseContainer, if_pos h0]
      rcases List.mem_cons.mp hc with rfl | hm
      · exact absurd h0 hne
      · exact List.mem_cons_of_mem _ hm
    · simp only [releaseContainer, if_neg h0]
      rcases List.mem_cons.mp hc with rfl | hm
      · exact List.mem_cons_self _ _
      · exact List.mem_cons_of_mem _ (ih hm)

theorem busyId_stepPool (ps : PoolState) (op : PoolOp) (cid : String)
    (h : busyId ps cid) (hop : ¬ relOf cid op) : busyId (stepPool ps op).2 cid := by
  obtain ⟨c, hc, hid, hb⟩ := h
  cases op with
  | acq probe now =>
    obtain ⟨c', hc', hid', hb'⟩ := gac_mem_mono probe now ps.containers c hc
    refine ⟨c', ?_, by rw [hid', hid], hb' hb⟩
    simpa [stepPool, poolAcquire] using hc'
  | rel cid' s =>
    have hne : c.id ≠ cid' := by
      intro hx
      exact hop (by rw [relOf, ← hx, hid])
    refine ⟨c, ?_, hid, hb⟩
    simp only [stepPool]
    rw [poolRelease_containers]
    exact releaseContainer_mem_ne cid' s ps.containers c hc hne

theorem busyId_runPool (ops : List PoolOp) (ps : PoolState) (cid : String)
    (h : busyId ps cid) (hops : ∀ op ∈ ops, ¬ relOf cid op) :
    busyId (runPool ps ops) cid := by
  induction ops generalizing ps with
  | nil => exact h
  | cons op rest ih =>
    simp only [runPool]
    exact ih (stepPool ps op).2 (busyId_stepPool ps op cid h (hops op (by simp)))
      (fun op' h' => hops op' (by simp [h']))

theorem map_id_gac (probe : String → Option Bool) (now : Nat) (l : List Container) :
    ((getAvailableContainer probe now l).2).map Container.id = l.map Container.id := by
  induction l with
  | nil => rfl
  | cons c rest ih =>
    by_cases he : c.busy = false ∧ c.healthy = true
    · rcases hp : probe c.url with _ | b
      · rw [gac_cons_probeExc probe now c rest he hp]
        simp [ih]
      · cases b
        · rw [gac_cons_probeFalse probe now c rest he hp]
          simp [ih]
        · rw [gac_cons_hit probe now c rest he hp]
          simp
    · rw [gac_cons_skip probe now c rest he]
      simp [ih]

theorem map_id_release (cid : String) (s : Bool) (l : List Container) :
    ((releaseContainer cid s l).1).map Container.id = l.map Container.id := by
  induction l with
  | nil => rfl
  | cons c rest ih =>
    by_cases h0 : c.id = cid
    · simp only [releaseContainer, if_pos h0]
      simp
    · simp only [releaseContainer, if_neg h0, List.map_cons, ih]

theorem map_id_stepPool (ps : PoolState) (op : PoolOp) :
    ((stepPool ps op).2).containers.map Container.id = ps.containers.map Container.id := by
  cases op with
  | acq probe now =>
    simp only [stepPool, poolAcquire]
    exact map_id_gac probe now ps.containers
  | rel cid s =>
    simp only [stepPool]
    rw [poolRelease_containers]
    exact map_id_release cid s ps.containers

theorem map_id_runPool (ops : List PoolOp) (ps : PoolState) :
    (runPool ps ops).containers.map Container.id = ps.containers.map Container.id := by
  induction ops generalizing ps with
  | nil => rfl
  | cons op rest ih =>
    simp only [runPool]
    rw [ih (stepPool ps op).2, map_id_stepPool]

/-- C5: over any serialized sequence of pool operations starting from a
pool with distinct worker ids, two acquires cannot return the same
worker while the first is still unreleased: if an acquire returns `w1`,
and after any further operations none of which releases `w1.id` a second
acquire returns `w2`, then `w1.id ≠ w2.id`.  (Acquire marks the returned
worker busy, nothing but a release of its id clears the flag, and
acquire only returns workers whose flag is clear.) -/
theorem c5_mutual_exclusion (ps0 : PoolState)
    (hids : (ps0.containers.map Container.id).Nodup)
    (pre mid : List PoolOp) (p1 p2 : String → Option Bool) (t1 t2 : Nat)
    (w1 w2 : Container)
    (h1 : (poolAcquire p1 t1 (runPool ps0 pre)).1 = some w1)
    (h2 : (poolAcquire p2 t2
        (runPool (poolAcquire p1 t1 (runPool ps0 pre)).2 mid)).1 = some w2)
    (hmid : ∀ op ∈ mid, ¬ relOf w1.id op) :
    w1.id ≠ w2.id := by
  intro heq
  have h1g : (getAvailableContainer p1 t1 (runPool ps0 pre).containers).1 = some w1 := h1
  have h2g : (getAvailableContainer p2 t2
      (runPool (poolAcquire p1 t1 (runPool ps0 pre)).2 mid).containers).1 = some w2 := h2
  have hb1 : busyId (poolAcquire p1 t1 (runPool ps0 pre)).2 w1.id := by
    have hmem := gac_some_mem p1 t1 (runPool ps0 pre).containers w1 h1g
    have hbusy := (gac_some_spec p1 t1 (runPool ps0 pre).containers w1 h1g).1
    exact ⟨w1, by simpa [poolAcquire] using hmem, rfl, hbusy⟩
  have hb2 := busyId_runPool mid (poolAcquire p1 t1 (runPool ps0 pre)).2 w1.id hb1 hmid
  obtain ⟨c, hcmem, hcid, hcbusy⟩ := hb2
  obtain ⟨hwb, hwp, l1, c0, l2, hsplit, hacq, hskip, hwv⟩ :=
    gac_some_spec p2 t2
      (runPool (poolAcquire p1 t1 (runPool ps0 pre)).2 mid).containers w2 h2g
  have hc0mem : c0 ∈ (runPool (poolAcquire p1 t1 (runPool ps0 pre)).2 mid).containers := by
    rw [hsplit]
    simp
  have hc0id : w2.id = c0.id := by rw [hwv]
  have hmap1 : (poolAcquire p1 t1 (runPool ps0 pre)).2.containers.map Container.id =
      ps0.containers.map Container.id := by
    simp only [poolAcquire]
    rw [map_id_gac, map_id_runPool]
  have hnd : ((runPool (poolAcquire p1 t1 (runPool ps0 pre)).2 mid).containers.map
      Container.id).Nodup := by
    rw [map_id_runPool, hmap1]
    exact hids
  have hceq : c = c0 :=
    List.inj_on_of_nodup_map hnd hcmem hc0mem (by rw [hcid, heq, hc0id])
  rw [hceq, hacq.1] at hcbusy
  cases hcbusy

/-- A two-worker pool, both idle and healthy. -/
def c5Pool : PoolState :=
  ⟨[{ url := "u1", id := "android-1", busy := false, healthy := true,
      lastHealthCheck := none, jobsCompleted := 0, jobsFailed := 0 },
    { url := "u2", id := "android-2", busy := false, healthy := true,
      lastHealthCheck := none, jobsCompleted := 0, jobsFailed := 0 }], 0, 0, 0⟩

/-- C5 witness: two back-to-back acquires on the fresh two-worker pool
return workers with distinct ids. -/
theorem c5_mutual_exclusion_witness :
    ({ url := "u1", id := "android-1", busy := true, healthy := true,
       lastHealthCheck := some 1, jobsCompleted := 0, jobsFailed := 0 } : Container).id ≠
    ({ url := "u2", id := "android-2", busy := true, healthy := true,
       lastHealthCheck := some 2, jobsCompleted := 0, jobsFailed := 0 } : Container).id :=
  c5_mutual_exclusion c5Pool (by decide) [] [] (fun _ => some true) (fun _ => some true)
    1 2 _ _ (by decide) (by decide) (fun op hop => absurd hop (List.not_mem_nil op))

end ApkOrch
